import Mathlib

/-!
Verification of the context-window manager and fuzzy edit engine of the
mistral-assistant repository (src/main.py), against its specification.

Texts are modelled as `List Char` (the byte/character sequence of a Python
string).  Python dict fields that the program only ever tests for truthiness
(`tool_calls`, `tool_call_id`) are modelled as lists where `[]` stands for
"absent or empty", which is exactly the distinction the source observes.
The lengths of Python `str(...)` serialisations of whole messages and of
tool-call lists are not recomputed here; they are passed in as explicit
size oracles (`reprLen`, `msgLen`), mirroring the way the source calls the
opaque `str` builtin, and all theorems hold for every such oracle.
-/

namespace MistralAssistant

/-- Message roles of the data model (spec section 3). -/
inductive Role where
  | system
  | user
  | assistant
  | tool
deriving DecidableEq, Repr

/-- A tool call as validated by `validate_tool_calls` in src/main.py. -/
structure ToolCall where
  id : List Char
  function_name : List Char
  arguments : List Char
deriving DecidableEq, Repr

/-- A conversation message.  `tool_calls = []` and `tool_call_id = []` model a
Python dict where the key is absent or falsy, which is how the source tests
them (`msg.get("tool_calls")`, `msg.get("tool_call_id")`). -/
structure Message where
  role : Role
  content : List Char
  tool_calls : List ToolCall
  tool_call_id : List Char
deriving DecidableEq, Repr

/-! ## TokenEstimator: `estimate_token_usage` (src/main.py lines 937-966) -/

/-- Per-role token breakdown, the dict initialised to
`{"system": 0, "user": 0, "assistant": 0, "tool": 0}`. -/
structure TokenBreakdown where
  system : ℕ
  user : ℕ
  assistant : ℕ
  tool : ℕ
deriving DecidableEq, Repr

/-- `token_breakdown[role] = token_breakdown.get(role, 0) + content_tokens`. -/
def TokenBreakdown.add (b : TokenBreakdown) (r : Role) (t : ℕ) : TokenBreakdown :=
  match r with
  | .system => { b with system := b.system + t }
  | .user => { b with user := b.user + t }
  | .assistant => { b with assistant := b.assistant + t }
  | .tool => { b with tool := b.tool + t }

/-- Projection of a breakdown at a role. -/
def TokenBreakdown.at (b : TokenBreakdown) (r : Role) : ℕ :=
  match r with
  | .system => b.system
  | .user => b.user
  | .assistant => b.assistant
  | .tool => b.tool

/-- Token cost the source attributes to one message:
`len(content) // 4`, plus `len(str(tool_calls)) // 4` when `tool_calls` is
truthy, plus `10` when `tool_call_id` is truthy.  `reprLen` is the length of
the Python `str(...)` serialisation of the tool-call list. -/
def messageTokens (reprLen : List ToolCall → ℕ) (m : Message) : ℕ :=
  m.content.length / 4
    + (if m.tool_calls ≠ [] then reprLen m.tool_calls / 4 else 0)
    + (if m.tool_call_id ≠ [] then 10 else 0)

lemma TokenBreakdown.at_add_self (b : TokenBreakdown) (r : Role) (t : ℕ) :
    (b.add r t).at r = b.at r + t := by
  cases r <;> rfl

lemma TokenBreakdown.at_add_ne (b : TokenBreakdown) (r r' : Role) (t : ℕ)
    (h : ¬ r = r') : (b.add r t).at r' = b.at r' := by
  cases r <;> cases r' <;> first | rfl | exact absurd rfl h

/-- One step of the `estimate_token_usage` loop body in src/main.py. -/
def estimateStep (reprLen : List ToolCall → ℕ) (acc : ℕ × TokenBreakdown)
    (msg : Message) : ℕ × TokenBreakdown :=
  let contentTokens := msg.content.length / 4
  let contentTokens :=
    if msg.tool_calls ≠ [] then contentTokens + reprLen msg.tool_calls / 4
    else contentTokens
  let contentTokens :=
    if msg.tool_call_id ≠ [] then contentTokens + 10 else contentTokens
  (acc.1 + contentTokens, acc.2.add msg.role contentTokens)

/-- `estimate_token_usage` from src/main.py: folds over the history
accumulating a running total and the per-role breakdown. -/
def estimate_token_usage (reprLen : List ToolCall → ℕ) (hist : List Message) :
    ℕ × TokenBreakdown :=
  hist.foldl (estimateStep reprLen) (0, ⟨0, 0, 0, 0⟩)

lemma estimateStep_eq (reprLen : List ToolCall → ℕ) (acc : ℕ × TokenBreakdown)
    (m : Message) :
    estimateStep reprLen acc m
      = (acc.1 + messageTokens reprLen m, acc.2.add m.role (messageTokens reprLen m)) := by
  unfold estimateStep messageTokens
  by_cases h1 : m.tool_calls = [] <;> by_cases h2 : m.tool_call_id = [] <;>
    simp [h1, h2]

lemma estimate_foldl_general (reprLen : List ToolCall → ℕ) (hist : List Message) :
    ∀ (t0 : ℕ) (b0 : TokenBreakdown),
      (hist.foldl (estimateStep reprLen) (t0, b0)).1
          = t0 + (hist.map (messageTokens reprLen)).sum
      ∧ ∀ r : Role,
        ((hist.foldl (estimateStep reprLen) (t0, b0)).2).at r
          = b0.at r
            + ((hist.filter (fun m => m.role = r)).map (messageTokens reprLen)).sum := by
  induction hist with
  | nil => intro t0 b0; simp
  | cons m rest ih =>
      intro t0 b0
      constructor
      · simp only [List.foldl_cons, estimateStep_eq]
        rw [(ih (t0 + messageTokens reprLen m) (b0.add m.role (messageTokens reprLen m))).1]
        simp [List.map_cons, List.sum_cons]
        ring
      · intro r
        simp only [List.foldl_cons, estimateStep_eq]
        rw [(ih (t0 + messageTokens reprLen m) (b0.add m.role (messageTokens reprLen m))).2 r]
        by_cases hr : m.role = r
        · subst hr
          rw [TokenBreakdown.at_add_self]
          simp [List.filter_cons]
          ring
        · rw [TokenBreakdown.at_add_ne _ _ _ _ hr]
          simp [List.filter_cons, hr]

/-- C7: the total estimated by `estimate_token_usage` is the sum over the log
of the per-message cost `len(content)//4 + len(str(tool_calls))//4 (when
truthy) + 10 (when tool_call_id truthy)`, and the per-role breakdown
aggregates exactly the same per-message costs by role.  (The function is a
pure Lean function of its arguments, so determinism is intrinsic.) -/
theorem estimate_token_usage_spec (reprLen : List ToolCall → ℕ)
    (hist : List Message) :
    (estimate_token_usage reprLen hist).1
        = (hist.map (messageTokens reprLen)).sum
      ∧ ∀ r : Role,
        ((estimate_token_usage reprLen hist).2).at r
          = ((hist.filter (fun m => m.role = r)).map (messageTokens reprLen)).sum := by
  have h := estimate_foldl_general reprLen hist 0 ⟨0, 0, 0, 0⟩
  constructor
  · have := h.1
    simpa [estimate_token_usage] using this
  · intro r
    have := h.2 r
    have hz : TokenBreakdown.at ⟨0, 0, 0, 0⟩ r = 0 := by
      cases r <;> simp [TokenBreakdown.at]
    simpa [estimate_token_usage, hz] using this

/-! ## ContextBudgetManager: `smart_truncate_history` (src/main.py lines 988-1121)

The numeric thresholds are floats in the source
(`ESTIMATED_MAX_TOKENS * CONTEXT_WARNING_THRESHOLD` etc., 52800 / 59400 with
the default configuration, and the truncation targets
`int(ESTIMATED_MAX_TOKENS * 0.6/0.7/0.8)`).  Token counts are integers, so the
comparisons against these constants are modelled by natural-number thresholds
carried in a `Budget`; every theorem is quantified over all budgets.
`msgLen` is the length oracle for Python `len(str(msg))` used by the
truncation loop. -/

/-- The budget-state constants read by `smart_truncate_history`. -/
structure Budget where
  warnTokens : ℕ
  critTokens : ℕ
  targetCritical : ℕ
  targetApproaching : ℕ
  targetGentle : ℕ
deriving DecidableEq, Repr

/-- The marker substring `"User added file"` that identifies a file-context
system message. -/
def userAddedFileMarker : List Char := "User added file".data

/-- Stable insertion: place `x` before the first `y` with `r x y`.  Folding a
list from the right with this models Python's stable `list.sort`. -/
def insertSorted (r : α → α → Bool) (x : α) : List α → List α
  | [] => [x]
  | y :: ys => if r x y then x :: y :: ys else y :: insertSorted r x ys

/-- Stable sort (Python `list.sort`): `r` must hold between an element and
everything it may precede, including key-ties (so ties keep original order). -/
def sortStable (r : α → α → Bool) (l : List α) : List α :=
  l.foldr (insertSorted r) []

/-- The sort key `(size ascending, recency descending)` used for file
contexts: `key=lambda x: (x[1], -file_contexts.index(x[0]))`, compared
lexicographically.  `fcs` is the `file_contexts` list the index is taken in. -/
def contextRank (fcs : List Message) (a b : Message × ℕ) : Bool :=
  decide (a.2 < b.2 ∨ (a.2 = b.2 ∧ fcs.indexOf b.1 ≤ fcs.indexOf a.1))

/-- Keep a prefix of the (already sorted, already `take 3`-limited) file
contexts while they fit in the reserved budget; stop at the first that does
not fit (the `break` in the source). -/
def keepWithinBudget (maxTokens : ℕ) : List (Message × ℕ) → ℕ → List Message
  | [], _ => []
  | (m, sz) :: rest, acc =>
    if acc + sz / 4 ≤ maxTokens then m :: keepWithinBudget maxTokens rest (acc + sz / 4)
    else []

/-- The backwards walk of `smart_truncate_history` over the non-system
messages (src/main.py lines 1062-1112), processed here over the reversed
list; `fuel` bounds the loop exactly as the index `i` does in the source
(each iteration consumes at least one message, and the function is called
with `fuel` = list length, so fuel never runs out before the list does).
Note the source re-inserts a kept tool sequence as
`tool_sequence + [assistant] + keep`, i.e. the assistant message is placed
after its tool responses in the output. -/
def keepLoop (msgLen : Message → ℕ) (remaining : ℤ) :
    ℕ → List Message → ℤ → List Message → List Message
  | 0, _, _, keep => keep
  | _ + 1, [], _, keep => keep
  | fuel + 1, m :: rest, cur, keep =>
    if cur < remaining then
      if m.role = Role.tool then
        let run := m :: rest.takeWhile (fun x => decide (x.role = Role.tool))
        let runTokens : ℤ := ((run.map (fun x => msgLen x / 4)).sum : ℕ)
        let rest1 := rest.dropWhile (fun x => decide (x.role = Role.tool))
        let step : Option Message × List Message :=
          match rest1 with
          | a :: tl =>
            if a.role = Role.assistant ∧ a.tool_calls ≠ [] then (some a, tl)
            else (none, rest1)
          | [] => (none, rest1)
        let asstTokens : ℤ :=
          match step.1 with
          | some a => ((msgLen a / 4 : ℕ) : ℤ)
          | none => 0
        let totalSequenceTokens := runTokens + asstTokens
        if cur + totalSequenceTokens ≤ remaining then
          keepLoop msgLen remaining fuel step.2 (cur + totalSequenceTokens)
            (run.reverse ++ (match step.1 with | some a => a :: keep | none => keep))
        else keep
      else
        if cur + ((msgLen m / 4 : ℕ) : ℤ) ≤ remaining then
          keepLoop msgLen remaining fuel rest (cur + ((msgLen m / 4 : ℕ) : ℤ)) (m :: keep)
        else keep
    else keep

/-- `smart_truncate_history` from src/main.py.  The pressure state is read
from the same history the function truncates (in the source,
`get_context_usage_info` reads the module-level `conversation_history`, which
is the very list passed in at every call site). -/
def smart_truncate_history (B : Budget) (reprLen : List ToolCall → ℕ)
    (msgLen : Message → ℕ) (maxMessages : ℕ) (hist : List Message) :
    List Message :=
  let currentTokens := (estimate_token_usage reprLen hist).1
  if currentTokens < B.warnTokens ∧ hist.length ≤ maxMessages then hist
  else
    let targetTokens :=
      if B.critTokens < currentTokens then B.targetCritical
      else if B.warnTokens < currentTokens then B.targetApproaching
      else B.targetGentle
    let systemMessages := hist.filter (fun m => decide (m.role = Role.system))
    let otherMessages := hist.filter (fun m => decide (¬ m.role = Role.system))
    let essentialSystem := systemMessages.take 1
    let fileContexts :=
      (systemMessages.drop 1).filter (fun m => decide (userAddedFileMarker <:+: m.content))
    let entries := fileContexts.map (fun m => (m, m.content.length))
    let sortedEntries := sortStable (contextRank fileContexts) entries
    let keptFileContexts := keepWithinBudget (targetTokens / 4) (sortedEntries.take 3) 0
    let essentialSys := essentialSystem ++ keptFileContexts
    let systemTokens := (estimate_token_usage reprLen essentialSys).1
    let remainingTokens : ℤ := (targetTokens : ℤ) - (systemTokens : ℤ)
    essentialSys ++ keepLoop msgLen remainingTokens otherMessages.length otherMessages.reverse 0 []

/-- C2: below the warning threshold and within the message-count cap,
`smart_truncate_history` is a no-op. -/
theorem smart_truncate_history_noop (B : Budget) (reprLen : List ToolCall → ℕ)
    (msgLen : Message → ℕ) (maxMessages : ℕ) (hist : List Message)
    (htok : (estimate_token_usage reprLen hist).1 < B.warnTokens)
    (hlen : hist.length ≤ maxMessages) :
    smart_truncate_history B reprLen msgLen maxMessages hist = hist := by
  unfold smart_truncate_history
  rw [if_pos ⟨htok, hlen⟩]

/-- Witness for C2 at a concrete healthy log. -/
theorem smart_truncate_history_noop_witness :
    (estimate_token_usage (fun _ => 0)
        [⟨Role.system, "hi".data, [], []⟩, ⟨Role.user, "yo".data, [], []⟩]).1 < 100
    ∧ ([⟨Role.system, "hi".data, [], []⟩, ⟨Role.user, "yo".data, [], []⟩] : List Message).length ≤ 50
    ∧ smart_truncate_history ⟨100, 200, 60, 70, 80⟩ (fun _ => 0) (fun _ => 0) 50
        [⟨Role.system, "hi".data, [], []⟩, ⟨Role.user, "yo".data, [], []⟩]
      = [⟨Role.system, "hi".data, [], []⟩, ⟨Role.user, "yo".data, [], []⟩] :=
  ⟨by decide, by decide,
    smart_truncate_history_noop ⟨100, 200, 60, 70, 80⟩ (fun _ => 0) (fun _ => 0) 50
      [⟨Role.system, "hi".data, [], []⟩, ⟨Role.user, "yo".data, [], []⟩]
      (by decide) (by decide)⟩

/-- C3: when the log starts with the system prompt, the output of
`smart_truncate_history` always contains that first system message, whatever
the budget state. -/
theorem smart_truncate_history_keeps_first_system (B : Budget)
    (reprLen : List ToolCall → ℕ) (msgLen : Message → ℕ) (maxMessages : ℕ)
    (m : Message) (rest : List Message) (hrole : m.role = Role.system) :
    m ∈ smart_truncate_history B reprLen msgLen maxMessages (m :: rest) := by
  unfold smart_truncate_history
  by_cases hc : (estimate_token_usage reprLen (m :: rest)).1 < B.warnTokens
      ∧ (m :: rest).length ≤ maxMessages
  · rw [if_pos hc]; exact List.mem_cons_self m rest
  · rw [if_neg hc]
    simp only []
    apply List.mem_append_left
    apply List.mem_append_left
    have hfil : (m :: rest).filter (fun x => decide (x.role = Role.system))
        = m :: rest.filter (fun x => decide (x.role = Role.system)) := by
      simp [List.filter_cons, hrole]
    rw [hfil]
    simp

/-- Witness for C3 at a concrete log under a zero budget (the truncating
branch is taken). -/
theorem smart_truncate_history_keeps_first_system_witness :
    (⟨Role.system, "sys".data, [], []⟩ : Message).role = Role.system
    ∧ (⟨Role.system, "sys".data, [], []⟩ : Message)
      ∈ smart_truncate_history ⟨0, 0, 0, 0, 0⟩ (fun _ => 0) (fun _ => 1000) 0
          [⟨Role.system, "sys".data, [], []⟩, ⟨Role.user, "hello".data, [], []⟩] :=
  ⟨rfl,
    smart_truncate_history_keeps_first_system ⟨0, 0, 0, 0, 0⟩ (fun _ => 0) (fun _ => 1000) 0
      ⟨Role.system, "sys".data, [], []⟩ [⟨Role.user, "hello".data, [], []⟩] rfl⟩

/-! ## Tool-call atomicity (C1)

A log satisfying the tool-call contiguity invariant of the data model is a
concatenation of blocks: either a single message that is not a tool response
and carries no pending tool calls, or an assistant message carrying tool
calls followed contiguously by exactly one tool response per call id. -/

/-- A structural block of a well-formed conversation log. -/
inductive Block where
  | plain (m : Message)
  | group (a : Message) (ts : List Message)
deriving DecidableEq, Repr

/-- The messages of a block, in log order. -/
def Block.msgs : Block → List Message
  | .plain m => [m]
  | .group a ts => a :: ts

/-- The messages of a block in the order the truncation loop re-inserts them
(the source appends `tool_sequence + [assistant_msg]` when keeping a group,
placing the assistant after its tool responses). -/
def Block.keptMsgs : Block → List Message
  | .plain m => [m]
  | .group a ts => ts ++ [a]

/-- Well-formedness of a block under the data-model invariant (spec section
3): tool messages only occur inside a group; an assistant message carrying
(truthy) `tool_calls` heads a group whose tool responses carry exactly the
call ids of the assistant message. -/
def WFBlock : Block → Prop
  | .plain m => ¬ m.role = Role.tool ∧ (m.role = Role.assistant → m.tool_calls = [])
  | .group a ts =>
      a.role = Role.assistant ∧ a.tool_calls ≠ [] ∧ ts ≠ []
        ∧ (∀ t ∈ ts, t.role = Role.tool)
        ∧ (ts.map Message.tool_call_id).Perm (a.tool_calls.map ToolCall.id)

instance : DecidablePred WFBlock := fun b =>
  match b with
  | .plain m =>
      inferInstanceAs (Decidable (¬ m.role = Role.tool
        ∧ (m.role = Role.assistant → m.tool_calls = [])))
  | .group a ts =>
      inferInstanceAs (Decidable (a.role = Role.assistant ∧ a.tool_calls ≠ [] ∧ ts ≠ []
        ∧ (∀ t ∈ ts, t.role = Role.tool)
        ∧ (ts.map Message.tool_call_id).Perm (a.tool_calls.map ToolCall.id)))

/-- The conversation log denoted by a block decomposition. -/
def blocksLog (bs : List Block) : List Message := (bs.map Block.msgs).flatten

lemma blocksLog_append (bs1 bs2 : List Block) :
    blocksLog (bs1 ++ bs2) = blocksLog bs1 ++ blocksLog bs2 := by
  simp [blocksLog]

lemma mem_blocksLog {bs : List Block} {b : Block} {x : Message}
    (hb : b ∈ bs) (hx : x ∈ b.msgs) : x ∈ blocksLog bs := by
  unfold blocksLog
  exact List.mem_flatten.2 ⟨b.msgs, List.mem_map_of_mem Block.msgs hb, hx⟩

lemma mem_msgs_iff_keptMsgs {b : Block} {x : Message} :
    x ∈ b.keptMsgs ↔ x ∈ b.msgs := by
  cases b with
  | plain m => simp [Block.msgs, Block.keptMsgs]
  | group a ts =>
      simp only [Block.msgs, Block.keptMsgs, List.mem_append, List.mem_cons,
        List.mem_singleton, List.not_mem_nil, or_false]
      tauto

/-- Under `Nodup`, a message determines the block it lies in. -/
lemma block_of_mem_unique : ∀ (bs : List Block), (blocksLog bs).Nodup →
    ∀ (b1 b2 : Block), b1 ∈ bs → b2 ∈ bs →
    ∀ (x : Message), x ∈ b1.msgs → x ∈ b2.msgs → b1 = b2 := by
  intro bs
  induction bs with
  | nil => intro _ b1 b2 h1; cases h1
  | cons c rest ih =>
      intro hnd b1 b2 h1 h2 x hx1 hx2
      have hnd' : (c.msgs ++ blocksLog rest).Nodup := by
        simpa [blocksLog] using hnd
      obtain ⟨-, hndr, hdisj⟩ := List.nodup_append.1 hnd'
      rcases List.mem_cons.1 h1 with rfl | h1' <;>
        rcases List.mem_cons.1 h2 with rfl | h2'
      · rfl
      · exact absurd (mem_blocksLog h2' hx2) (fun hc => hdisj hx1 hc)
      · exact absurd (mem_blocksLog h1' hx1) (fun hc => hdisj hx2 hc)
      · exact ih hndr b1 b2 h1' h2' x hx1 hx2

/-- Whether a block survives the system/non-system partition into
`other_messages`. -/
def otherBlock : Block → Bool
  | .plain m => decide (¬ m.role = Role.system)
  | .group _ _ => true

lemma filter_blocksLog (bs : List Block) (hwf : ∀ b ∈ bs, WFBlock b) :
    (blocksLog bs).filter (fun m => decide (¬ m.role = Role.system))
      = blocksLog (bs.filter otherBlock) := by
  induction bs with
  | nil => simp [blocksLog]
  | cons c rest ih =>
      have hwfc : WFBlock c := hwf c (List.mem_cons_self c rest)
      have ihr := ih (fun b hb => hwf b (List.mem_cons_of_mem c hb))
      have hsplit : blocksLog (c :: rest) = c.msgs ++ blocksLog rest := by
        simp [blocksLog]
      rw [hsplit, List.filter_append, ihr]
      cases c with
      | plain m =>
          by_cases hs : m.role = Role.system
          · simp [Block.msgs, otherBlock, List.filter_cons, hs, blocksLog]
          · simp [Block.msgs, otherBlock, List.filter_cons, hs, blocksLog]
      | group a ts =>
          obtain ⟨ha, -, -, htool, -⟩ := hwfc
          have hfil : (Block.msgs (.group a ts)).filter
              (fun m => decide (¬ m.role = Role.system)) = Block.msgs (.group a ts) := by
            apply List.filter_eq_self.2
            intro x hx
            rcases List.mem_cons.1 hx with rfl | hx'
            · simp [ha]
            · simp [htool x hx']
          rw [hfil]
          simp [otherBlock, blocksLog]

lemma takeWhile_append_all {p : α → Bool} {l1 l2 : List α}
    (h : ∀ x ∈ l1, p x = true) :
    (l1 ++ l2).takeWhile p = l1 ++ l2.takeWhile p := by
  induction l1 with
  | nil => simp
  | cons a t ih =>
      simp only [List.cons_append, List.takeWhile_cons,
        h a (List.mem_cons_self a t), if_true]
      rw [ih (fun x hx => h x (List.mem_cons_of_mem a hx))]

lemma dropWhile_append_all {p : α → Bool} {l1 l2 : List α}
    (h : ∀ x ∈ l1, p x = true) :
    (l1 ++ l2).dropWhile p = l2.dropWhile p := by
  induction l1 with
  | nil => simp
  | cons a t ih =>
      simp only [List.cons_append, List.dropWhile_cons,
        h a (List.mem_cons_self a t), if_true]
      exact ih (fun x hx => h x (List.mem_cons_of_mem a hx))

lemma keepLoop_fuel_zero (msgLen : Message → ℕ) (remaining : ℤ) (l : List Message)
    (cur : ℤ) (acc : List Message) :
    keepLoop msgLen remaining 0 l cur acc = acc := by
  cases l <;> rfl

lemma keepLoop_nil (msgLen : Message → ℕ) (remaining : ℤ) (f : ℕ) (cur : ℤ)
    (acc : List Message) :
    keepLoop msgLen remaining (f + 1) [] cur acc = acc := rfl

lemma keepLoop_stop (msgLen : Message → ℕ) (remaining : ℤ) (f : ℕ)
    (m : Message) (rest : List Message) (cur : ℤ) (acc : List Message)
    (h : ¬ cur < remaining) :
    keepLoop msgLen remaining (f + 1) (m :: rest) cur acc = acc := by
  simp [keepLoop, h]

lemma keepLoop_plain (msgLen : Message → ℕ) (remaining : ℤ) (f : ℕ)
    (m : Message) (rest : List Message) (cur : ℤ) (acc : List Message)
    (hrem : cur < remaining) (hmt : ¬ m.role = Role.tool) :
    keepLoop msgLen remaining (f + 1) (m :: rest) cur acc
      = if cur + ((msgLen m / 4 : ℕ) : ℤ) ≤ remaining
        then keepLoop msgLen remaining f rest (cur + ((msgLen m / 4 : ℕ) : ℤ)) (m :: acc)
        else acc := by
  simp [keepLoop, hrem, hmt]

lemma keepLoop_group (msgLen : Message → ℕ) (remaining : ℤ) (f : ℕ)
    (w : Message) (ws : List Message) (a : Message) (L : List Message)
    (cur : ℤ) (acc : List Message)
    (hrem : cur < remaining) (hw : w.role = Role.tool)
    (hws : ∀ x ∈ ws, x.role = Role.tool)
    (ha : a.role = Role.assistant) (htc : a.tool_calls ≠ []) :
    keepLoop msgLen remaining (f + 1) (w :: (ws ++ a :: L)) cur acc
      = (if cur + ((((w :: ws).map (fun x => msgLen x / 4)).sum : ℕ)
            + ((msgLen a / 4 : ℕ) : ℤ)) ≤ remaining
         then keepLoop msgLen remaining f L
            (cur + ((((w :: ws).map (fun x => msgLen x / 4)).sum : ℕ)
              + ((msgLen a / 4 : ℕ) : ℤ)))
            ((w :: ws).reverse ++ a :: acc)
         else acc) := by
  have htake : (ws ++ a :: L).takeWhile (fun x => decide (x.role = Role.tool)) = ws := by
    rw [takeWhile_append_all (fun x hx => by simp [hws x hx])]
    simp [List.takeWhile_cons, ha]
  have hdrop : (ws ++ a :: L).dropWhile (fun x => decide (x.role = Role.tool)) = a :: L := by
    rw [dropWhile_append_all (fun x hx => by simp [hws x hx])]
    simp [List.dropWhile_cons, ha]
  simp only [keepLoop, hrem, if_true, hw, htake, hdrop]
  rw [if_pos (show a.role = Role.assistant ∧ a.tool_calls ≠ [] from ⟨ha, htc⟩)]

/-- The backwards walk keeps a whole suffix of the block decomposition:
for some `k`, the kept messages are exactly the blocks from `k` on, each
block re-emitted by `Block.keptMsgs`.  In particular no tool-call group is
ever partially kept. -/
lemma keepLoop_blocks (msgLen : Message → ℕ) (remaining : ℤ) (bs : List Block) :
    (∀ b ∈ bs, WFBlock b) →
    ∀ (fuel : ℕ), (blocksLog bs).length ≤ fuel →
    ∀ (cur : ℤ) (acc : List Message),
      ∃ k ≤ bs.length,
        keepLoop msgLen remaining fuel (blocksLog bs).reverse cur acc
          = ((bs.drop k).map Block.keptMsgs).flatten ++ acc := by
  induction bs using List.reverseRecOn with
  | nil =>
      intro _ fuel _ cur acc
      refine ⟨0, Nat.zero_le _, ?_⟩
      cases fuel with
      | zero => simp [keepLoop_fuel_zero, blocksLog]
      | succ f => simp [blocksLog, keepLoop_nil]
  | append_singleton bs b ih =>
      intro hwf fuel hfuel cur acc
      have hwf' : ∀ x ∈ bs, WFBlock x := fun x hx => hwf x (List.mem_append_left _ hx)
      have hwfb : WFBlock b := hwf b (List.mem_append_right _ (List.mem_cons_self b []))
      have hlog : blocksLog (bs ++ [b]) = blocksLog bs ++ b.msgs := by
        rw [blocksLog_append]; simp [blocksLog]
      have hfulllen : (bs ++ [b]).length = bs.length + 1 := by simp
      have hdropfull : ∀ acc0 : List Message,
          (((bs ++ [b]).drop ((bs ++ [b]).length)).map Block.keptMsgs).flatten ++ acc0
            = acc0 := by
        intro acc0; simp [List.drop_length]
      cases b with
      | plain m =>
          obtain ⟨hmt, -⟩ := hwfb
          have hlist : (blocksLog (bs ++ [Block.plain m])).reverse
              = m :: (blocksLog bs).reverse := by
            rw [hlog]; simp [Block.msgs]
          have hlen1 : (blocksLog (bs ++ [Block.plain m])).length
              = (blocksLog bs).length + 1 := by
            rw [hlog]; simp [Block.msgs]
          obtain ⟨f, rfl⟩ : ∃ f, fuel = f + 1 := by
            refine ⟨fuel - 1, ?_⟩; omega
          have hLf : (blocksLog bs).length ≤ f := by omega
          rw [hlist]
          by_cases hrem : cur < remaining
          · rw [keepLoop_plain msgLen remaining f m _ cur acc hrem hmt]
            by_cases hfit : cur + ((msgLen m / 4 : ℕ) : ℤ) ≤ remaining
            · rw [if_pos hfit]
              obtain ⟨k, hk, heq⟩ := ih hwf' f hLf (cur + ((msgLen m / 4 : ℕ) : ℤ)) (m :: acc)
              refine ⟨k, by simp; omega, ?_⟩
              rw [heq, List.drop_append_of_le_length hk]
              simp [Block.keptMsgs]
            · rw [if_neg hfit]
              exact ⟨(bs ++ [Block.plain m]).length, le_refl _,
                (hdropfull acc).symm⟩
          · rw [keepLoop_stop msgLen remaining f m _ cur acc hrem]
            exact ⟨(bs ++ [Block.plain m]).length, le_refl _, (hdropfull acc).symm⟩
      | group a ts =>
          obtain ⟨ha, htc, hts, htool, -⟩ := hwfb
          obtain ⟨w, ws, hrev⟩ := List.exists_cons_of_ne_nil
            (show ts.reverse ≠ [] by simp [hts])
          have hwts : w ∈ ts := by
            have : w ∈ ts.reverse := by rw [hrev]; exact List.mem_cons_self w ws
            simpa using this
          have hwsts : ∀ x ∈ ws, x ∈ ts := by
            intro x hx
            have : x ∈ ts.reverse := by rw [hrev]; exact List.mem_cons_of_mem w hx
            simpa using this
          have hlist : (blocksLog (bs ++ [Block.group a ts])).reverse
              = w :: (ws ++ a :: (blocksLog bs).reverse) := by
            rw [hlog]
            simp only [Block.msgs, List.reverse_append, List.reverse_cons]
            rw [hrev]
            simp
          have hlen1 : (blocksLog (bs ++ [Block.group a ts])).length
              = (blocksLog bs).length + ts.length + 1 := by
            rw [hlog]; simp [Block.msgs]; omega
          have htslen : 1 ≤ ts.length := by
            cases ts with
            | nil => exact absurd rfl hts
            | cons x xs => simp
          obtain ⟨f, rfl⟩ : ∃ f, fuel = f + 1 := by
            refine ⟨fuel - 1, ?_⟩; omega
          have hLf : (blocksLog bs).length ≤ f := by omega
          rw [hlist]
          by_cases hrem : cur < remaining
          · rw [keepLoop_group msgLen remaining f w ws a _ cur acc hrem
              (htool w hwts) (fun x hx => htool x (hwsts x hx)) ha htc]
            by_cases hfit : cur + ((((w :: ws).map (fun x => msgLen x / 4)).sum : ℕ)
                + ((msgLen a / 4 : ℕ) : ℤ)) ≤ remaining
            · rw [if_pos hfit]
              obtain ⟨k, hk, heq⟩ := ih hwf' f hLf _ ((w :: ws).reverse ++ a :: acc)
              refine ⟨k, by simp; omega, ?_⟩
              rw [heq, List.drop_append_of_le_length hk]
              have hwws : (w :: ws).reverse = ts := by
                rw [← hrev]; simp
              rw [hwws]
              simp [Block.keptMsgs]
            · rw [if_neg hfit]
              exact ⟨(bs ++ [Block.group a ts]).length, le_refl _, (hdropfull acc).symm⟩
          · rw [keepLoop_stop msgLen remaining f w _ cur acc hrem]
            exact ⟨(bs ++ [Block.group a ts]).length, le_refl _, (hdropfull acc).symm⟩

lemma mem_insertSorted {r : α → α → Bool} {x y : α} :
    ∀ {l : List α}, y ∈ insertSorted r x l → y = x ∨ y ∈ l := by
  intro l
  induction l with
  | nil => intro h; simpa [insertSorted] using h
  | cons z zs ih =>
      intro h
      unfold insertSorted at h
      by_cases hr : r x z
      · rw [if_pos hr] at h
        rcases List.mem_cons.1 h with rfl | h2
        · exact Or.inl rfl
        · exact Or.inr h2
      · rw [if_neg hr] at h
        rcases List.mem_cons.1 h with rfl | h2
        · exact Or.inr (List.mem_cons_self _ _)
        · rcases ih h2 with rfl | h3
          · exact Or.inl rfl
          · exact Or.inr (List.mem_cons_of_mem _ h3)

lemma mem_sortStable {r : α → α → Bool} {y : α} :
    ∀ {l : List α}, y ∈ sortStable r l → y ∈ l := by
  intro l
  induction l with
  | nil => intro h; simp [sortStable] at h
  | cons z zs ih =>
      intro h
      have h' : y ∈ insertSorted r z (sortStable r zs) := h
      rcases mem_insertSorted h' with rfl | h2
      · exact List.mem_cons_self _ _
      · exact List.mem_cons_of_mem _ (ih h2)

lemma mem_keepWithinBudget {maxT : ℕ} {x : Message} :
    ∀ {l : List (Message × ℕ)} {acc : ℕ},
      x ∈ keepWithinBudget maxT l acc → ∃ sz, (x, sz) ∈ l := by
  intro l
  induction l with
  | nil => intro acc h; simp [keepWithinBudget] at h
  | cons p rest ih =>
      intro acc h
      obtain ⟨m, sz⟩ := p
      unfold keepWithinBudget at h
      by_cases hfit : acc + sz / 4 ≤ maxT
      · rw [if_pos hfit] at h
        rcases List.mem_cons.1 h with rfl | h2
        · exact ⟨sz, List.mem_cons_self _ _⟩
        · obtain ⟨sz', hsz'⟩ := ih h2
          exact ⟨sz', List.mem_cons_of_mem _ hsz'⟩
      · rw [if_neg hfit] at h
        simp at h

/-- Output shape of `smart_truncate_history`: either the no-op branch, or a
list of retained system messages followed by the output of the backwards
keep-loop over the non-system messages. -/
lemma smart_truncate_structure (B : Budget) (reprLen : List ToolCall → ℕ)
    (msgLen : Message → ℕ) (maxMessages : ℕ) (hist : List Message) :
    smart_truncate_history B reprLen msgLen maxMessages hist = hist
    ∨ ∃ (sys : List Message) (rem : ℤ),
        smart_truncate_history B reprLen msgLen maxMessages hist
          = sys ++ keepLoop msgLen rem
              (hist.filter (fun m => decide (¬ m.role = Role.system))).length
              (hist.filter (fun m => decide (¬ m.role = Role.system))).reverse 0 []
        ∧ ∀ x ∈ sys, x.role = Role.system := by
  unfold smart_truncate_history
  by_cases hc : (estimate_token_usage reprLen hist).1 < B.warnTokens
      ∧ hist.length ≤ maxMessages
  · left; rw [if_pos hc]
  · right
    rw [if_neg hc]
    refine ⟨_, _, rfl, ?_⟩
    intro x hx
    rcases List.mem_append.1 hx with hx1 | hx2
    · have hx1' := List.mem_filter.1 (List.mem_of_mem_take hx1)
      exact of_decide_eq_true hx1'.2
    · obtain ⟨sz, hsz⟩ := mem_keepWithinBudget hx2
      have h3 := mem_sortStable (List.mem_of_mem_take hsz)
      obtain ⟨m, hm, hpair⟩ := List.mem_map.1 h3
      have hx3 : x = m := congrArg Prod.fst hpair.symm
      subst hx3
      have hm2 := List.mem_filter.1 hm
      have hm3 := List.mem_filter.1 (List.mem_of_mem_drop hm2.1)
      exact of_decide_eq_true hm3.2

/-- C1: on a log satisfying the tool-call contiguity invariant (presented as
a block decomposition with pairwise-distinct messages), the output of
`smart_truncate_history` contains a tool message only together with the
assistant message carrying the matching tool-call ids and all of its sibling
tool responses: no tool-call/response group is partially kept, under any
budget and any size oracles. -/
theorem smart_truncate_history_atomic (B : Budget) (reprLen : List ToolCall → ℕ)
    (msgLen : Message → ℕ) (maxMessages : ℕ) (bs : List Block)
    (hwf : ∀ b ∈ bs, WFBlock b) (hnd : (blocksLog bs).Nodup)
    (a : Message) (ts : List Message) (hb : Block.group a ts ∈ bs)
    (t : Message) (ht : t ∈ ts)
    (hmem : t ∈ smart_truncate_history B reprLen msgLen maxMessages (blocksLog bs)) :
    a ∈ smart_truncate_history B reprLen msgLen maxMessages (blocksLog bs)
      ∧ ∀ x ∈ ts, x ∈ smart_truncate_history B reprLen msgLen maxMessages (blocksLog bs) := by
  have hwfg : WFBlock (Block.group a ts) := hwf _ hb
  obtain ⟨ha, htc, hts, htool, -⟩ := hwfg
  rcases smart_truncate_structure B reprLen msgLen maxMessages (blocksLog bs) with
    heq | ⟨sys, rem, heq, hsys⟩
  · rw [heq]
    exact ⟨mem_blocksLog hb (List.mem_cons_self _ _),
      fun x hx => mem_blocksLog hb (List.mem_cons_of_mem _ hx)⟩
  · have hfilter := filter_blocksLog bs hwf
    have hwf2 : ∀ b ∈ bs.filter otherBlock, WFBlock b :=
      fun b hb2 => hwf b (List.mem_of_mem_filter hb2)
    obtain ⟨k, hk, hkeq⟩ := keepLoop_blocks msgLen rem (bs.filter otherBlock) hwf2
      (blocksLog (bs.filter otherBlock)).length (le_refl _) 0 []
    rw [heq, hfilter, hkeq] at hmem ⊢
    have httool : t.role = Role.tool := htool t ht
    have htnot : ¬ t ∈ sys := by
      intro hc
      have := hsys t hc
      rw [this] at httool
      exact absurd httool (by simp)
    have hmem' : t ∈ (((bs.filter otherBlock).drop k).map Block.keptMsgs).flatten := by
      rcases List.mem_append.1 hmem with h1 | h2
      · exact absurd h1 htnot
      · simpa using h2
    obtain ⟨lmsgs, hl, htl⟩ := List.mem_flatten.1 hmem'
    obtain ⟨b', hb', rfl⟩ := List.mem_map.1 hl
    have hb'bs : b' ∈ bs := List.mem_of_mem_filter (List.mem_of_mem_drop hb')
    have ht'm : t ∈ b'.msgs := mem_msgs_iff_keptMsgs.1 htl
    have hbeq : b' = Block.group a ts :=
      block_of_mem_unique bs hnd b' (Block.group a ts) hb'bs hb t ht'm
        (List.mem_cons_of_mem a ht)
    subst hbeq
    constructor
    · apply List.mem_append_right
      apply List.mem_append_left
      exact List.mem_flatten.2 ⟨(Block.group a ts).keptMsgs,
        List.mem_map_of_mem Block.keptMsgs hb', by simp [Block.keptMsgs]⟩
    · intro x hx
      apply List.mem_append_right
      apply List.mem_append_left
      exact List.mem_flatten.2 ⟨(Block.group a ts).keptMsgs,
        List.mem_map_of_mem Block.keptMsgs hb', by simp [Block.keptMsgs, hx]⟩

/-- Witness for C1 at a concrete well-formed log. -/
theorem smart_truncate_history_atomic_witness :
    (⟨Role.tool, "r".data, [], "1".data⟩ : Message)
        ∈ smart_truncate_history ⟨1000, 2000, 60, 70, 80⟩ (fun _ => 0) (fun _ => 0) 50
          (blocksLog [Block.plain ⟨Role.system, "s".data, [], []⟩,
            Block.plain ⟨Role.user, "u".data, [], []⟩,
            Block.group ⟨Role.assistant, "a".data, [⟨"1".data, "f".data, []⟩], []⟩
              [⟨Role.tool, "r".data, [], "1".data⟩],
            Block.plain ⟨Role.assistant, "d".data, [], []⟩])
    ∧ (⟨Role.assistant, "a".data, [⟨"1".data, "f".data, []⟩], []⟩ : Message)
        ∈ smart_truncate_history ⟨1000, 2000, 60, 70, 80⟩ (fun _ => 0) (fun _ => 0) 50
          (blocksLog [Block.plain ⟨Role.system, "s".data, [], []⟩,
            Block.plain ⟨Role.user, "u".data, [], []⟩,
            Block.group ⟨Role.assistant, "a".data, [⟨"1".data, "f".data, []⟩], []⟩
              [⟨Role.tool, "r".data, [], "1".data⟩],
            Block.plain ⟨Role.assistant, "d".data, [], []⟩]) := by
  have h := smart_truncate_history_atomic ⟨1000, 2000, 60, 70, 80⟩ (fun _ => 0) (fun _ => 0) 50
    [Block.plain ⟨Role.system, "s".data, [], []⟩,
      Block.plain ⟨Role.user, "u".data, [], []⟩,
      Block.group ⟨Role.assistant, "a".data, [⟨"1".data, "f".data, []⟩], []⟩
        [⟨Role.tool, "r".data, [], "1".data⟩],
      Block.plain ⟨Role.assistant, "d".data, [], []⟩]
    (by decide) (by decide)
    ⟨Role.assistant, "a".data, [⟨"1".data, "f".data, []⟩], []⟩
    [⟨Role.tool, "r".data, [], "1".data⟩]
    (by decide)
    ⟨Role.tool, "r".data, [], "1".data⟩
    (by decide)
    (by decide)
  exact ⟨by decide, h.1⟩

/-! ## SnippetEditor: `apply_fuzzy_diff_edit` (src/main.py lines 833-898)

The file content, snippets and windows are character lists.  The fuzzy
scorer (`thefuzz`'s `fuzz.ratio` behind `fuzzy_process.extractOne`) is an
external collaborator and is passed in as a score function `σ`; the selection
logic of `extractOne` (first-seen maximum) is modelled explicitly.  Errors
are the `ValueError`s raised by the source; an error leaves the content
unwritten (the source raises before calling `create_file`). -/

/-- Python `s.count(sub)` for nonempty `sub`: greedy non-overlapping count,
with `fuel` bounding the scan exactly as the cursor does (called with
`fuel = s.length`, which each step strictly decreases). -/
def pyCountAux (sub : List Char) : ℕ → List Char → ℕ
  | 0, _ => 0
  | fuel + 1, s =>
    if sub <+: s then pyCountAux sub fuel (s.drop sub.length) + 1
    else
      match s with
      | [] => 0
      | _ :: t => pyCountAux sub fuel t

/-- Python `s.count(sub)` (the empty pattern matches at every gap). -/
def pyCount (s sub : List Char) : ℕ :=
  if sub = [] then s.length + 1 else pyCountAux sub s.length s

/-- Replace the first occurrence, for nonempty `sub`. -/
def replFirst (sub new : List Char) : List Char → List Char
  | [] => []
  | c :: t => if sub <+: (c :: t) then new ++ (c :: t).drop sub.length
              else c :: replFirst sub new t

/-- Python `s.replace(sub, new, 1)`. -/
def pyReplaceOne (s sub new : List Char) : List Char :=
  if sub = [] then new ++ s else replFirst sub new s

/-- Python `s.split('\n')`. -/
def splitNl : List Char → List (List Char)
  | [] => [[]]
  | c :: t =>
    if c = '\n' then [] :: splitNl t
    else
      match splitNl t with
      | [] => [[c]]
      | l :: ls => (c :: l) :: ls

/-- Python `'\n'.join(ls)`. -/
def joinNl (ls : List (List Char)) : List Char := List.intercalate ['\n'] ls

/-- The `k`-line sliding windows (`choices` in the source):
`'\n'.join(lines[i:i+k])` for `i in range(len(lines) - k + 1)` (an empty
range when `len(lines) < k`). -/
def slidingWindows (lines : List (List Char)) (k : ℕ) : List (List Char) :=
  if lines.length + 1 ≤ k then []
  else (List.range (lines.length - k + 1)).map (fun i => joinNl ((lines.drop i).take k))

/-- The candidate window list built by `apply_fuzzy_diff_edit`. -/
def editChoices (content snippet : List Char) : List (List Char) :=
  slidingWindows (splitNl content) (splitNl snippet).length

/-- `fuzzy_process.extractOne(query, choices)`: the best-scoring choice,
first-seen winning ties (Python `max` keeps the first maximum).  The source
never calls it on an empty list; `([], 0)` stands for that unreachable case. -/
def extractOne (σ : List Char → List Char → ℕ) (query : List Char) :
    List (List Char) → List Char × ℕ
  | [] => ([], 0)
  | c :: cs =>
    cs.foldl (fun best x => if best.2 < σ query x then (x, σ query x) else best)
      (c, σ query c)

/-- The `ValueError`s of `apply_fuzzy_diff_edit`. -/
inductive EditError where
  | snippetNotFound
  | contentTooShort
  | belowThreshold (score : ℕ)
  | ambiguous
deriving DecidableEq, Repr

/-- `apply_fuzzy_diff_edit` from src/main.py (the pure edit logic; reading
and writing the file are the caller's filesystem side effects, and every
`.error` corresponds to a raise before any write). -/
def apply_fuzzy_diff_edit (fuzzyAvailable : Bool)
    (σ : List Char → List Char → ℕ) (minEditScore : ℕ)
    (content originalSnippet newSnippet : List Char) :
    Except EditError (List Char) :=
  if pyCount content originalSnippet = 1 then
    .ok (pyReplaceOne content originalSnippet newSnippet)
  else if fuzzyAvailable = false then .error .snippetNotFound
  else
    let choices := editChoices content originalSnippet
    if choices = [] then .error .contentTooShort
    else
      let best := extractOne σ originalSnippet choices
      if best.2 < minEditScore then .error (.belowThreshold best.2)
      else if 1 < choices.count best.1 then .error .ambiguous
      else .ok (pyReplaceOne content best.1 newSnippet)

/-- Number of positions at which `sub` occurs in `s` (overlapping
occurrences each counted): the claim-side notion of "occurs exactly once". -/
def occurrenceCount (sub : List Char) : List Char → ℕ
  | [] => if sub <+: ([] : List Char) then 1 else 0
  | c :: t => (if sub <+: (c :: t) then 1 else 0) + occurrenceCount sub t

lemma occurrenceCount_le_cons (sub : List Char) (c : Char) (t : List Char) :
    occurrenceCount sub t ≤ occurrenceCount sub (c :: t) := by
  simp only [occurrenceCount]
  omega

lemma occurrenceCount_drop_le (sub : List Char) (k : ℕ) :
    ∀ (s : List Char), occurrenceCount sub (s.drop k) ≤ occurrenceCount sub s := by
  induction k with
  | zero => intro s; simp
  | succ n ih =>
      intro s
      cases s with
      | nil => simp
      | cons c t =>
          calc occurrenceCount sub ((c :: t).drop (n + 1))
              = occurrenceCount sub (t.drop n) := rfl
            _ ≤ occurrenceCount sub t := ih t
            _ ≤ occurrenceCount sub (c :: t) := occurrenceCount_le_cons sub c t

lemma occurrenceCount_nil_of_ne {sub : List Char} (hsub : sub ≠ []) :
    occurrenceCount sub [] = 0 := by
  simp [occurrenceCount, List.prefix_nil, hsub]

lemma pyCountAux_le_occurrenceCount {sub : List Char} (hsub : sub ≠ []) :
    ∀ (fuel : ℕ) (s : List Char), s.length ≤ fuel →
      pyCountAux sub fuel s ≤ occurrenceCount sub s := by
  intro fuel
  induction fuel with
  | zero =>
      intro s hs
      simp [pyCountAux]
  | succ f ih =>
      intro s hs
      by_cases hpre : sub <+: s
      · have hlen : 1 ≤ sub.length := by
          cases sub with
          | nil => exact absurd rfl hsub
          | cons a b => simp
        obtain ⟨c, t, rfl⟩ : ∃ c t, s = c :: t := by
          cases s with
          | nil =>
              obtain ⟨q, hq⟩ := hpre
              cases sub with
              | nil => exact absurd rfl hsub
              | cons a b => simp at hq
          | cons c t => exact ⟨c, t, rfl⟩
        have hdrop : (c :: t).drop sub.length = t.drop (sub.length - 1) := by
          cases hl : sub.length with
          | zero => omega
          | succ n => simp
        unfold pyCountAux
        rw [if_pos hpre]
        have h1 : pyCountAux sub f ((c :: t).drop sub.length)
            ≤ occurrenceCount sub ((c :: t).drop sub.length) := by
          apply ih
          have := List.length_drop sub.length (c :: t)
          simp at hs ⊢
          omega
        have h2 : occurrenceCount sub ((c :: t).drop sub.length)
            ≤ occurrenceCount sub t := by
          rw [hdrop]
          exact occurrenceCount_drop_le sub (sub.length - 1) t
        have h3 : occurrenceCount sub (c :: t)
            = 1 + occurrenceCount sub t := by
          simp [occurrenceCount, hpre]
        omega
      · unfold pyCountAux
        rw [if_neg hpre]
        cases s with
        | nil => simp
        | cons c t =>
            have h1 : pyCountAux sub f t ≤ occurrenceCount sub t := by
              apply ih
              simp at hs
              omega
            have h2 := occurrenceCount_le_cons sub c t
            simpa using le_trans h1 h2

lemma pyCountAux_pos {sub : List Char} (hsub : sub ≠ []) :
    ∀ (fuel : ℕ) (s : List Char), s.length ≤ fuel →
      1 ≤ occurrenceCount sub s → 1 ≤ pyCountAux sub fuel s := by
  intro fuel
  induction fuel with
  | zero =>
      intro s hs hocc
      have : s = [] := by
        cases s with
        | nil => rfl
        | cons c t => simp at hs
      subst this
      rw [occurrenceCount_nil_of_ne hsub] at hocc
      omega
  | succ f ih =>
      intro s hs hocc
      by_cases hpre : sub <+: s
      · unfold pyCountAux
        rw [if_pos hpre]
        omega
      · cases s with
        | nil =>
            rw [occurrenceCount_nil_of_ne hsub] at hocc
            omega
        | cons c t =>
            have hocc' : 1 ≤ occurrenceCount sub t := by
              have : occurrenceCount sub (c :: t)
                  = 0 + occurrenceCount sub t := by
                simp [occurrenceCount, hpre]
              omega
            unfold pyCountAux
            rw [if_neg hpre]
            apply ih t _ hocc'
            simp at hs
            omega

lemma replFirst_of_unique {sub : List Char} (new : List Char) (hsub : sub ≠ []) :
    ∀ (s : List Char), occurrenceCount sub s = 1 →
      ∃ p q, s = p ++ sub ++ q ∧ replFirst sub new s = p ++ new ++ q := by
  intro s
  induction s with
  | nil =>
      intro h
      rw [occurrenceCount_nil_of_ne hsub] at h
      omega
  | cons c t ih =>
      intro h
      by_cases hpre : sub <+: (c :: t)
      · obtain ⟨q, hq⟩ := hpre
        refine ⟨[], q, by simp [← hq], ?_⟩
        unfold replFirst
        rw [if_pos ⟨q, hq⟩, ← hq, List.drop_left]
        simp
      · have hocc : occurrenceCount sub t = 1 := by
          have : occurrenceCount sub (c :: t) = 0 + occurrenceCount sub t := by
            simp [occurrenceCount, hpre]
          omega
        obtain ⟨p, q, hpq, hr⟩ := ih hocc
        refine ⟨c :: p, q, by simp [hpq], ?_⟩
        unfold replFirst
        rw [if_neg hpre, hr]
        simp

lemma occurrenceCount_nil_sub : ∀ (s : List Char),
    occurrenceCount [] s = s.length + 1 := by
  intro s
  induction s with
  | nil => simp [occurrenceCount]
  | cons c t ih =>
      simp [occurrenceCount, List.nil_prefix, ih]
      omega

/-- C4: when the original snippet occurs exactly once in the content, the
edit replaces that single occurrence and is otherwise byte-identical, for
every scorer, every threshold and whether or not fuzzy matching is available
(the exact path never consults the scorer). -/
theorem apply_fuzzy_diff_edit_exact (fuzzyAvailable : Bool)
    (σ : List Char → List Char → ℕ) (minEditScore : ℕ)
    (content snippet repl : List Char)
    (huniq : occurrenceCount snippet content = 1) :
    ∃ p q, content = p ++ snippet ++ q
      ∧ apply_fuzzy_diff_edit fuzzyAvailable σ minEditScore content snippet repl
          = .ok (p ++ repl ++ q) := by
  by_cases hsub : snippet = []
  · subst hsub
    rw [occurrenceCount_nil_sub content] at huniq
    have hc : content = [] := by
      cases content with
      | nil => rfl
      | cons c t => simp at huniq
    subst hc
    refine ⟨[], [], by simp, ?_⟩
    unfold apply_fuzzy_diff_edit
    rw [if_pos (by simp [pyCount])]
    simp [pyReplaceOne]
  · have hle := pyCountAux_le_occurrenceCount hsub content.length content (le_refl _)
    have hge := pyCountAux_pos hsub content.length content (le_refl _) (by omega)
    have hcount : pyCount content snippet = 1 := by
      unfold pyCount
      rw [if_neg hsub]
      omega
    obtain ⟨p, q, hpq, hr⟩ := replFirst_of_unique repl hsub content huniq
    refine ⟨p, q, hpq, ?_⟩
    unfold apply_fuzzy_diff_edit
    rw [if_pos hcount]
    unfold pyReplaceOne
    rw [if_neg hsub, hr]

/-- Witness for C4 at a concrete file content. -/
theorem apply_fuzzy_diff_edit_exact_witness :
    occurrenceCount "world".data "hello world!".data = 1
    ∧ ∃ p q, "hello world!".data = p ++ "world".data ++ q
        ∧ apply_fuzzy_diff_edit true (fun _ _ => 0) 85
            "hello world!".data "world".data "there".data
          = .ok (p ++ "there".data ++ q) :=
  ⟨by decide,
    apply_fuzzy_diff_edit_exact true (fun _ _ => 0) 85
      "hello world!".data "world".data "there".data (by decide)⟩

/-- C5: when the snippet does not occur exactly once, the scorer is
available, and the best-scoring window reaches the minimum edit score, the
edit fails with the ambiguity error exactly when the best window's text
occurs as more than one window among the candidates (and an error never
returns any content). -/
theorem apply_fuzzy_diff_edit_ambiguous (σ : List Char → List Char → ℕ)
    (minEditScore : ℕ) (content snippet repl : List Char)
    (hexact : pyCount content snippet ≠ 1)
    (hchoices : editChoices content snippet ≠ [])
    (hscore : minEditScore ≤ (extractOne σ snippet (editChoices content snippet)).2) :
    apply_fuzzy_diff_edit true σ minEditScore content snippet repl
        = .error .ambiguous
      ↔ 1 < (editChoices content snippet).count
          (extractOne σ snippet (editChoices content snippet)).1 := by
  unfold apply_fuzzy_diff_edit
  rw [if_neg hexact, if_neg (by simp), if_neg hchoices,
    if_neg (not_lt.2 hscore)]
  by_cases hdup : 1 < (editChoices content snippet).count
      (extractOne σ snippet (editChoices content snippet)).1
  · rw [if_pos hdup]
    simp [hdup]
  · rw [if_neg hdup]
    simp [hdup]

/-- Witness for C5: duplicated two-line chunks make the best fuzzy window
ambiguous. -/
theorem apply_fuzzy_diff_edit_ambiguous_witness :
    pyCount "ab\ncd\nab\ncd".data "xx\nyy".data ≠ 1
    ∧ 85 ≤ (extractOne
        (fun _ w => if w = "ab\ncd".data then 90 else 10) "xx\nyy".data
        (editChoices "ab\ncd\nab\ncd".data "xx\nyy".data)).2
    ∧ (apply_fuzzy_diff_edit true
          (fun _ w => if w = "ab\ncd".data then 90 else 10) 85
          "ab\ncd\nab\ncd".data "xx\nyy".data "ZZ".data
        = .error .ambiguous
      ↔ 1 < (editChoices "ab\ncd\nab\ncd".data "xx\nyy".data).count
          (extractOne (fun _ w => if w = "ab\ncd".data then 90 else 10)
            "xx\nyy".data
            (editChoices "ab\ncd\nab\ncd".data "xx\nyy".data)).1) :=
  ⟨by decide, by decide,
    apply_fuzzy_diff_edit_ambiguous
      (fun _ w => if w = "ab\ncd".data then 90 else 10) 85
      "ab\ncd\nab\ncd".data "xx\nyy".data "ZZ".data
      (by decide) (by decide) (by decide)⟩

/-! ## FileContextStore: `add_file_context_smartly` (src/main.py lines 1166-1269)

The pressure state (`context_info["approaching_limit"]`) is computed once at
the top of the function from the same history and is therefore a single
boolean for the whole invocation; it is passed in as `approaching`.
`maxSingleFileTokens` models `int(ESTIMATED_MAX_TOKENS * 0.8)`.  The file
path extracted from a context message's first line feeds only console
output in the source, so entries are modelled as `(message, size)` pairs. -/

/-- The apostrophe character used in the file-context marker. -/
def quoteChar : Char := Char.ofNat 39

/-- `f"User added file '{file_path}'"`. -/
def fileMarker (filePath : List Char) : List Char :=
  "User added file ".data ++ quoteChar :: (filePath ++ [quoteChar])

/-- `f"{marker}. Content:\n\n{content}"`. -/
def fileContextContent (filePath content : List Char) : List Char :=
  fileMarker filePath ++ ". Content:\n\n".data ++ content

/-- The backward scan counting tool responses, stopping at the first message
equal to the last assistant message (`elif msg == last_msg: break`); applied
to the reversed history.  Because the scan starts at the last message itself,
it always stops immediately there. -/
def countToolResponses (ids : List (List Char)) (lastMsg : Message) :
    List Message → ℕ
  | [] => 0
  | m :: rest =>
    if m.role = Role.tool ∧ m.tool_call_id ∈ ids then
      countToolResponses ids lastMsg rest + 1
    else if m = lastMsg then 0
    else countToolResponses ids lastMsg rest

/-- The deferral test of `add_file_context_smartly`: the last message is an
assistant message with (truthy) pending tool calls whose responses are not
all present yet. -/
def pendingToolCallGuard (hist : List Message) : Bool :=
  match hist.getLast? with
  | none => false
  | some lastMsg =>
    if lastMsg.role = Role.assistant ∧ lastMsg.tool_calls ≠ [] then
      let ids := (lastMsg.tool_calls.map ToolCall.id).dedup
      decide (countToolResponses ids lastMsg hist.reverse < ids.length)
    else false

/-- The `(message, size)` list of current file-context entries: system
messages whose content contains `"User added file"`. -/
def contextEntries (hist : List Message) : List (Message × ℕ) :=
  (hist.filter
    (fun m => decide (m.role = Role.system ∧ userAddedFileMarker <:+: m.content))).map
    (fun m => (m, m.content.length))

/-- `key=lambda x: x[2], reverse=True`: size descending, stable. -/
def sizeDescRank (a b : Message × ℕ) : Bool := decide (b.2 ≤ a.2)

/-- The order the eviction loop consumes the entry list in: the stable
size-descending sort when the log is in the approaching state (the in-place
`sort` at the top of each loop iteration), insertion order otherwise. -/
def evictionOrder (approaching : Bool) (ctxs : List (Message × ℕ)) :
    List (Message × ℕ) :=
  if approaching then sortStable sizeDescRank ctxs else ctxs

/-- `conversation_history[:] = [msg for msg in conversation_history
if msg != to_remove[0]]`. -/
def removeMessage (hist : List Message) (e : Message × ℕ) : List Message :=
  hist.filter (fun m => decide (¬ m = e.1))

/-- The eviction loop: while the entry count is at or above the limit, evict
the largest entry (stable-sorted first) in the approaching state, else the
oldest, removing every equal message from the history; `fuel` is the entry
count, which each iteration strictly decreases.  (With `max_files = 0` and
no entries the source raises `IndexError` on `pop(0)`; that unreachable
branch returns the history unchanged here and all theorems assume
`1 ≤ maxFiles`.) -/
def evictLoop (approaching : Bool) (maxFiles : ℕ) :
    ℕ → List (Message × ℕ) → List Message → List Message
  | 0, _, hist => hist
  | fuel + 1, ctxs, hist =>
    if maxFiles ≤ ctxs.length then
      match evictionOrder approaching ctxs with
      | [] => hist
      | e :: rest =>
          evictLoop approaching maxFiles fuel rest (removeMessage hist e)
    else hist

/-- The insertion position: index of the last `user` message, else the end. -/
def lastUserIdx (hist : List Message) : ℕ :=
  match hist.reverse.findIdx? (fun m => decide (m.role = Role.user)) with
  | some r => hist.length - 1 - r
  | none => hist.length

/-- The supersede-on-duplicate step: drop every existing context message
carrying this exact file's marker. -/
def dedupedHistory (hist : List Message) (filePath : List Char) : List Message :=
  hist.filter
    (fun m => decide (¬ (m.role = Role.system ∧ fileMarker filePath <:+: m.content)))

/-- `add_file_context_smartly` from src/main.py: size gate, deferral gate,
supersede-on-duplicate, capacity eviction, then insertion before the last
user message. -/
def add_file_context_smartly (approaching : Bool) (maxSingleFileTokens : ℕ)
    (hist : List Message) (filePath content : List Char) (maxContextFiles : ℕ) :
    Bool × List Message :=
  if maxSingleFileTokens < content.length / 4 then (false, hist)
  else if pendingToolCallGuard hist then (true, hist)
  else
    let deduped := dedupedHistory hist filePath
    let ctxs := contextEntries deduped
    let afterEvict := evictLoop approaching maxContextFiles ctxs.length ctxs deduped
    (true, afterEvict.insertIdx (lastUserIdx afterEvict)
      ⟨Role.system, fileContextContent filePath content, [], []⟩)

lemma length_insertSorted (r : α → α → Bool) (x : α) :
    ∀ (l : List α), (insertSorted r x l).length = l.length + 1 := by
  intro l
  induction l with
  | nil => rfl
  | cons y ys ih =>
      unfold insertSorted
      by_cases hr : r x y
      · rw [if_pos hr]; simp
      · rw [if_neg hr]; simp [ih]

lemma length_sortStable (r : α → α → Bool) :
    ∀ (l : List α), (sortStable r l).length = l.length := by
  intro l
  induction l with
  | nil => rfl
  | cons y ys ih =>
      have : sortStable r (y :: ys) = insertSorted r y (sortStable r ys) := rfl
      rw [this, length_insertSorted, ih]
      simp

lemma insertSorted_cons (r : α → α → Bool) (x y : α) (ys : List α) :
    insertSorted r x (y :: ys)
      = if r x y then x :: y :: ys else y :: insertSorted r x ys := rfl

/-- The head of the stable size-descending sort is the earliest entry of
maximal size. -/
lemma sortStable_sizeDesc_head :
    ∀ (l : List (Message × ℕ)), l ≠ [] →
      ∃ e rest p q, sortStable sizeDescRank l = e :: rest
        ∧ l = p ++ e :: q
        ∧ (∀ x ∈ p, x.2 < e.2) ∧ (∀ x ∈ l, x.2 ≤ e.2) := by
  intro l
  induction l with
  | nil => intro h; exact absurd rfl h
  | cons a t ih =>
      intro _
      cases t with
      | nil =>
          refine ⟨a, [], [], [], rfl, by simp, by simp, by simp⟩
      | cons b t' =>
          obtain ⟨e, rest, p, q, hsort, hdec, hplt, hall⟩ := ih (by simp)
          have hstep : sortStable sizeDescRank (a :: b :: t')
              = insertSorted sizeDescRank a (sortStable sizeDescRank (b :: t')) := rfl
          rw [hsort] at hstep
          by_cases hr : sizeDescRank a e
          · have hle : e.2 ≤ a.2 := of_decide_eq_true hr
            refine ⟨a, e :: rest, [], b :: t', ?_, by simp, by simp, ?_⟩
            · rw [hstep, insertSorted_cons, if_pos hr]
            · intro x hx
              rcases List.mem_cons.1 hx with rfl | hx'
              · exact le_refl _
              · exact le_trans (hall x hx') hle
          · have hlt : a.2 < e.2 := by
              have hfalse : sizeDescRank a e = false := by
                cases hsd : sizeDescRank a e
                · rfl
                · exact absurd hsd hr
              have := of_decide_eq_false hfalse
              omega
            refine ⟨e, insertSorted sizeDescRank a rest, a :: p, q, ?_, by simp [hdec], ?_, ?_⟩
            · rw [hstep, insertSorted_cons, if_neg hr]
            · intro x hx
              rcases List.mem_cons.1 hx with rfl | hx'
              · exact hlt
              · exact hplt x hx'
            · intro x hx
              rcases List.mem_cons.1 hx with rfl | hx'
              · exact le_of_lt hlt
              · exact hall x hx'

lemma evictLoop_stop (app : Bool) (maxF fuel : ℕ) (ctxs : List (Message × ℕ))
    (hist : List Message) (h : ctxs.length < maxF) :
    evictLoop app maxF fuel ctxs hist = hist := by
  cases fuel with
  | zero => rfl
  | succ f =>
      unfold evictLoop
      rw [if_neg (not_le.2 h)]

lemma insertSorted_perm (r : α → α → Bool) (x : α) :
    ∀ (l : List α), (insertSorted r x l).Perm (x :: l) := by
  intro l
  induction l with
  | nil => exact List.Perm.refl _
  | cons y ys ih =>
      rw [insertSorted_cons]
      by_cases hr : r x y
      · rw [if_pos hr]
      · rw [if_neg hr]
        exact (List.Perm.cons y ih).trans (List.Perm.swap x y ys)

lemma sortStable_perm (r : α → α → Bool) :
    ∀ (l : List α), (sortStable r l).Perm l := by
  intro l
  induction l with
  | nil => exact List.Perm.refl _
  | cons x xs ih =>
      have h1 : sortStable r (x :: xs) = insertSorted r x (sortStable r xs) := rfl
      rw [h1]
      exact (insertSorted_perm r x (sortStable r xs)).trans (List.Perm.cons x ih)

lemma insertSorted_sizeDesc_pairwise (x : Message × ℕ) :
    ∀ (l : List (Message × ℕ)), l.Pairwise (fun a b => b.2 ≤ a.2) →
      (insertSorted sizeDescRank x l).Pairwise (fun a b => b.2 ≤ a.2) := by
  intro l
  induction l with
  | nil =>
      intro _
      simp [insertSorted]
  | cons y ys ih =>
      intro hp
      obtain ⟨hy, hys⟩ := List.pairwise_cons.1 hp
      rw [insertSorted_cons]
      by_cases hr : sizeDescRank x y
      · rw [if_pos hr]
        have hxy : y.2 ≤ x.2 := of_decide_eq_true hr
        refine List.pairwise_cons.2 ⟨?_, hp⟩
        intro b hb
        rcases List.mem_cons.1 hb with rfl | hb'
        · exact hxy
        · exact le_trans (hy b hb') hxy
      · rw [if_neg hr]
        have hxy : x.2 ≤ y.2 := by
          have hfalse : sizeDescRank x y = false := by
            cases h : sizeDescRank x y
            · rfl
            · exact absurd h hr
          have := of_decide_eq_false hfalse
          omega
        refine List.pairwise_cons.2 ⟨?_, ih hys⟩
        intro b hb
        rcases mem_insertSorted hb with rfl | hb'
        · exact hxy
        · exact hy b hb'

lemma sortStable_sizeDesc_pairwise :
    ∀ (l : List (Message × ℕ)),
      (sortStable sizeDescRank l).Pairwise (fun a b => b.2 ≤ a.2) := by
  intro l
  induction l with
  | nil => simp [sortStable]
  | cons x xs ih => exact insertSorted_sizeDesc_pairwise x (sortStable sizeDescRank xs) ih

lemma sortStable_sizeDesc_fixpoint :
    ∀ (l : List (Message × ℕ)), l.Pairwise (fun a b => b.2 ≤ a.2) →
      sortStable sizeDescRank l = l := by
  intro l
  induction l with
  | nil => intro _; rfl
  | cons x xs ih =>
      intro hp
      obtain ⟨hx, hxs⟩ := List.pairwise_cons.1 hp
      have h1 : sortStable sizeDescRank (x :: xs)
          = insertSorted sizeDescRank x (sortStable sizeDescRank xs) := rfl
      rw [h1, ih hxs]
      cases xs with
      | nil => rfl
      | cons y ys =>
          rw [insertSorted_cons,
            if_pos (show sizeDescRank x y = true from
              decide_eq_true (hx y (List.mem_cons_self y ys)))]

/-- The whole eviction loop run on an entry list that is already in
consumption order: it drains the first `length + 1 - maxF` entries, removing
each from the history in turn. -/
lemma evictLoop_run (app : Bool) (maxF : ℕ) (h1 : 1 ≤ maxF) :
    ∀ (fuel : ℕ) (S : List (Message × ℕ)) (hist : List Message),
      S.length ≤ fuel →
      (app = true → S.Pairwise (fun a b => b.2 ≤ a.2)) →
      evictLoop app maxF fuel S hist
        = (S.take (S.length + 1 - maxF)).foldl removeMessage hist := by
  intro fuel
  induction fuel with
  | zero =>
      intro S hist hlen _
      have hS : S = [] := List.eq_nil_of_length_eq_zero (by omega)
      subst hS
      simp [evictLoop]
  | succ f ih =>
      intro S hist hlen hsort
      by_cases hge : maxF ≤ S.length
      · obtain ⟨e, rest, rfl⟩ : ∃ e rest, S = e :: rest := by
          cases S with
          | nil => simp at hge; omega
          | cons e rest => exact ⟨e, rest, rfl⟩
        have hord : evictionOrder app (e :: rest) = e :: rest := by
          cases app with
          | false => rfl
          | true =>
              have := sortStable_sizeDesc_fixpoint (e :: rest) (hsort rfl)
              simpa [evictionOrder] using this
        have hstep : evictLoop app maxF (f + 1) (e :: rest) hist
            = evictLoop app maxF f rest (removeMessage hist e) := by
          simp only [evictLoop]
          rw [if_pos hge, hord]
        have hlen' : rest.length ≤ f := by simp at hlen; omega
        have hsort' : app = true → rest.Pairwise (fun a b => b.2 ≤ a.2) :=
          fun h => (List.pairwise_cons.1 (hsort h)).2
        rw [hstep, ih rest (removeMessage hist e) hlen' hsort']
        have hk : (e :: rest).length + 1 - maxF = (rest.length + 1 - maxF) + 1 := by
          simp at hge ⊢
          omega
        rw [hk, List.take_succ_cons, List.foldl_cons]
      · rw [evictLoop_stop app maxF (f + 1) S hist (by omega)]
        have hk0 : S.length + 1 - maxF = 0 := by omega
        rw [hk0]
        simp

/-- In the approaching state the loop behaves as if the entry list had been
sorted up front: the first iteration's in-place sort fixes the order and
re-sorting a sorted list is the identity. -/
lemma evictLoop_sortFirst (maxF : ℕ) (fuel : ℕ) (ctxs : List (Message × ℕ))
    (hist : List Message) :
    evictLoop true maxF fuel ctxs hist
      = evictLoop true maxF fuel (sortStable sizeDescRank ctxs) hist := by
  cases fuel with
  | zero => rfl
  | succ f =>
      unfold evictLoop
      rw [length_sortStable]
      by_cases hge : maxF ≤ ctxs.length
      · rw [if_pos hge, if_pos hge]
        have hl : evictionOrder true ctxs = sortStable sizeDescRank ctxs := rfl
        have hfix : evictionOrder true (sortStable sizeDescRank ctxs)
            = sortStable sizeDescRank ctxs := by
          have := sortStable_sizeDesc_fixpoint (sortStable sizeDescRank ctxs)
            (sortStable_sizeDesc_pairwise ctxs)
          simpa [evictionOrder] using this
        rw [hl, hfix]
      · rw [if_neg hge, if_neg hge]

/-- C8: whenever the entry count is at or above `max_entries` (and the size
and deferral gates pass), `add_file_context_smartly` accepts the new file
and evicts one entry per loop pass — `count + 1 - max_entries` of them in
all — taken from the front of the eviction order: the stable size-descending
order (so successive largest entries, a permutation of the entries in which
the very first evictee is the earliest entry of maximal size, every evictee
at least as large as every survivor) when the log is in the approaching
state, which is fixed once per invocation, and insertion order (the oldest
entries first) otherwise; the new context message is then inserted before
the last user message of the remaining history. -/
theorem add_file_context_smartly_eviction (app : Bool) (maxSingle : ℕ)
    (hist : List Message) (filePath content : List Char) (maxF : ℕ)
    (hsize : ¬ maxSingle < content.length / 4)
    (hguard : pendingToolCallGuard hist = false)
    (h1 : 1 ≤ maxF)
    (hn : maxF ≤ (contextEntries (dedupedHistory hist filePath)).length) :
    let ded := dedupedHistory hist filePath
    let ctxs := contextEntries ded
    let evicted := (evictionOrder app ctxs).take (ctxs.length + 1 - maxF)
    let remaining := evicted.foldl removeMessage ded
    (add_file_context_smartly app maxSingle hist filePath content maxF).1 = true
    ∧ (add_file_context_smartly app maxSingle hist filePath content maxF).2
        = remaining.insertIdx (lastUserIdx remaining)
            ⟨Role.system, fileContextContent filePath content, [], []⟩
    ∧ evicted.length = ctxs.length + 1 - maxF
    ∧ (app = false → evicted = ctxs.take (ctxs.length + 1 - maxF))
    ∧ (app = true →
        (evictionOrder app ctxs).Perm ctxs
        ∧ (∀ e ∈ evicted,
            ∀ s ∈ (evictionOrder app ctxs).drop (ctxs.length + 1 - maxF), s.2 ≤ e.2)
        ∧ ∃ e rest, evictionOrder app ctxs = e :: rest
            ∧ ∃ p q, ctxs = p ++ e :: q ∧ (∀ x ∈ p, x.2 < e.2)
                ∧ ∀ x ∈ ctxs, x.2 ≤ e.2) := by
  intro ded ctxs evicted remaining
  have hne : ctxs ≠ [] := by
    intro hc
    rw [show ctxs = contextEntries (dedupedHistory hist filePath) from rfl] at hc
    rw [hc] at hn
    simp at hn
    omega
  have hlenord : (evictionOrder app ctxs).length = ctxs.length := by
    cases app with
    | false => rfl
    | true => exact length_sortStable sizeDescRank ctxs
  have hadd : add_file_context_smartly app maxSingle hist filePath content maxF
      = (true, (evictLoop app maxF ctxs.length ctxs ded).insertIdx
          (lastUserIdx (evictLoop app maxF ctxs.length ctxs ded))
          ⟨Role.system, fileContextContent filePath content, [], []⟩) := by
    unfold add_file_context_smartly
    rw [if_neg hsize, hguard, if_neg Bool.false_ne_true]
  have hloop : evictLoop app maxF ctxs.length ctxs ded = remaining := by
    cases app with
    | false =>
        have := evictLoop_run false maxF h1 ctxs.length ctxs ded (le_refl _)
          (fun h => absurd h Bool.false_ne_true)
        exact this
    | true =>
        rw [evictLoop_sortFirst maxF ctxs.length ctxs ded]
        have := evictLoop_run true maxF h1 ctxs.length (sortStable sizeDescRank ctxs)
          ded (by rw [length_sortStable]) (fun _ => sortStable_sizeDesc_pairwise ctxs)
        rw [this, length_sortStable]
        rfl
  refine ⟨by rw [hadd], by rw [hadd, hloop], ?_, ?_, ?_⟩
  · rw [show evicted = (evictionOrder app ctxs).take (ctxs.length + 1 - maxF) from rfl,
      List.length_take, hlenord]
    omega
  · intro happ
    subst happ
    rfl
  · intro happ
    subst happ
    have hordeq : evictionOrder true ctxs = sortStable sizeDescRank ctxs := rfl
    refine ⟨hordeq ▸ sortStable_perm sizeDescRank ctxs, ?_, ?_⟩
    · intro e he s hs
      have hp := sortStable_sizeDesc_pairwise ctxs
      rw [← List.take_append_drop (ctxs.length + 1 - maxF)
        (sortStable sizeDescRank ctxs)] at hp
      have hcross := (List.pairwise_append.1 hp).2.2
      exact hcross e (by simpa [hordeq] using he) s (by simpa [hordeq] using hs)
    · obtain ⟨e, rest, p, q, hsort, hdec, hplt, hall⟩ := sortStable_sizeDesc_head ctxs hne
      exact ⟨e, rest, by rw [hordeq, hsort], p, q, hdec, hplt, hall⟩

/-- The oldest file-context entry, which is also the smallest. -/
def c8SmallOld : Message := ⟨Role.system, fileContextContent "a".data "B".data, [], []⟩

/-- A newer and strictly larger file-context entry. -/
def c8BigNew : Message := ⟨Role.system, fileContextContent "b".data "AAAAAAAA".data, [], []⟩

/-- The last user message. -/
def c8User : Message := ⟨Role.user, "hi".data, [], []⟩

/-- A history at capacity: two file-context entries, the larger one newer. -/
def c8Hist : List Message := [c8SmallOld, c8BigNew, c8User]

/-- Above-capacity entries: the oldest is mid-sized, the largest is in the
middle, the smallest is newest. -/
def c8MidOver : Message := ⟨Role.system, fileContextContent "m".data "DDDD".data, [], []⟩

/-- The largest of the three above-capacity entries. -/
def c8BigOver : Message := ⟨Role.system, fileContextContent "g".data "EEEEEEEE".data, [], []⟩

/-- The smallest and newest of the three above-capacity entries. -/
def c8SmallOver : Message := ⟨Role.system, fileContextContent "s".data "F".data, [], []⟩

/-- A history with three file-context entries, one above the capacity of 2. -/
def c8HistOver : List Message := [c8MidOver, c8BigOver, c8SmallOver, c8User]

/-- The new context message inserted by the witness scenarios. -/
def c8NewCtx : Message := ⟨Role.system, fileContextContent "c".data "C".data, [], []⟩

/-- Witness for C8.  At capacity (2 entries, limit 2) in the approaching
state, adding a smaller file evicts the single largest entry — the newer
one, not the oldest, which survives.  One above capacity (3 entries,
limit 2), two entries are evicted — the two largest, across the insertion
order — leaving only the smallest. -/
theorem add_file_context_smartly_eviction_witness :
    ((add_file_context_smartly true 100 c8Hist "c".data "C".data 2).1 = true
      ∧ (add_file_context_smartly true 100 c8Hist "c".data "C".data 2).2
          = [c8SmallOld, c8NewCtx, c8User])
    ∧ (add_file_context_smartly true 100 c8HistOver "c".data "C".data 2).1 = true
    ∧ (add_file_context_smartly true 100 c8HistOver "c".data "C".data 2).2
        = [c8SmallOver, c8NewCtx, c8User] := by
  have h := add_file_context_smartly_eviction true 100 c8Hist "c".data "C".data 2
    (by decide) (by decide) (by decide) (by decide)
  have h2 := add_file_context_smartly_eviction true 100 c8HistOver "c".data "C".data 2
    (by decide) (by decide) (by decide) (by decide)
  exact ⟨⟨h.1, by decide⟩, h2.1, by decide⟩

/-! ## Version-control status parsing: `get_git_status_porcelain`
(src/main.py lines 1739-1778).  The porcelain text produced by the
collaborator is the input; the subprocess call itself is outside the model. -/

/-- Python `s.ljust(2)`. -/
def ljust2 (l : List Char) : List Char :=
  if l.length < 2 then l ++ List.replicate (2 - l.length) ' ' else l

/-- Python `line.split(' ', 1)`: `none` when the line holds no space. -/
def splitOnceSpace : List Char → Option (List Char × List Char)
  | [] => none
  | c :: t =>
    if c = ' ' then some ([], t)
    else
      match splitOnceSpace t with
      | some (a, b) => some (c :: a, b)
      | none => none

/-- The per-line parser of `get_git_status_porcelain`: the `line[1] == ' '`
branch takes the first two characters, otherwise the line is split at its
first space and the first field padded to two characters (with
`line[:2]`/`line[2:]` as the no-space fallback, which `take 2`/`drop 2`
also produce for short lines). -/
def parseStatusLine (line : List Char) : List Char × List Char :=
  if 2 ≤ line.length ∧ line.get? 1 = some ' ' then (line.take 2, line.drop 2)
  else
    match splitOnceSpace line with
    | some (a, b) => (ljust2 a, b)
    | none => (line.take 2, line.drop 2)

/-- Python `s.strip()`. -/
def pyStrip (s : List Char) : List Char :=
  ((s.dropWhile Char.isWhitespace).reverse.dropWhile Char.isWhitespace).reverse

/-- `get_git_status_porcelain` from src/main.py, over the collaborator's
porcelain output text. -/
def get_git_status_porcelain (gitEnabled : Bool) (stdout : List Char) :
    Bool × List (List Char × List Char) :=
  if gitEnabled = false then (false, [])
  else if pyStrip stdout = [] then (false, [])
  else
    (true, ((splitNl (pyStrip stdout)).filter (fun l => decide (¬ l = []))).map
      parseStatusLine)

/-- C9 counterexample: the porcelain line `" M file"` (status `" M"`, i.e.
modified-unstaged, whose first status character is a space) is parsed as
status `"  "` with filename `"M file"`, not as status `" M"` with filename
`"file"` as the claim requires. -/
theorem parseStatusLine_space_first_counterexample :
    parseStatusLine (' ' :: 'M' :: ' ' :: "file".data)
        = ([' ', ' '], 'M' :: ' ' :: "file".data)
      ∧ parseStatusLine (' ' :: 'M' :: ' ' :: "file".data)
        ≠ ([' ', 'M'], "file".data) := by
  constructor
  · decide
  · decide

/-- C9 amended: the parser handles the `"X filename"` shape (second
character a space: first two characters become the status), and the
`"XY filename"` shape whose first status character is not a space (split at
the first space); but a line whose first status character is a space, such
as `" M file"`, yields the padded status `"  "` with everything after the
leading space as the filename. -/
theorem parseStatusLine_shapes :
    (∀ (x : Char) (f : List Char), parseStatusLine (x :: ' ' :: f) = ([x, ' '], f))
    ∧ (∀ (x y : Char) (f : List Char), ¬ x = ' ' → ¬ y = ' ' →
        parseStatusLine (x :: y :: ' ' :: f) = ([x, y], f))
    ∧ (∀ (y : Char) (f : List Char), ¬ y = ' ' →
        parseStatusLine (' ' :: y :: ' ' :: f) = ([' ', ' '], y :: ' ' :: f)) := by
  refine ⟨?_, ?_, ?_⟩
  · intro x f
    unfold parseStatusLine
    rw [if_pos ⟨by simp, by simp⟩]
    simp
  · intro x y f hx hy
    unfold parseStatusLine
    rw [if_neg (by simp [hy])]
    simp [splitOnceSpace, hx, hy, ljust2]
  · intro y f hy
    unfold parseStatusLine
    rw [if_neg (by simp [hy])]
    simp [splitOnceSpace, ljust2, List.replicate]

/-- Witness for the amended C9 statement at the three concrete line shapes. -/
theorem parseStatusLine_shapes_witness :
    parseStatusLine ['M', ' ', 'f'] = (['M', ' '], ['f'])
    ∧ parseStatusLine ['M', 'M', ' ', 'f'] = (['M', 'M'], ['f'])
    ∧ parseStatusLine [' ', 'M', ' ', 'f'] = ([' ', ' '], ['M', ' ', 'f']) :=
  ⟨parseStatusLine_shapes.1 'M' ['f'],
    parseStatusLine_shapes.2.1 'M' 'M' ['f'] (by decide) (by decide),
    parseStatusLine_shapes.2.2 'M' ['f'] (by decide)⟩

/-! ## FileFinder: `find_best_matching_file` (src/main.py lines 787-831)

`os.walk` is the filesystem collaborator; its yield is passed in as a list
of `(Path(dirpath).parts, filenames)` entries, every `dirpath` extending the
search root.  `ratio` is the fuzzy scorer collaborator (`fuzz.ratio`); the
source applies it to lowercased names.  The source returns
`str(Path(best_match).resolve())` built with `os.path.join(dirpath,
filename)`; the model returns the `(dirpath parts, filename)` pair. -/

/-- Model of `part.startswith('.')`. -/
def startsWithDot (s : String) : Bool :=
  match s.data with
  | [] => false
  | c :: _ => c = '.'

/-- Model of `os.path.splitext(filename)[1]`: the suffix from the last dot,
ignoring any leading dots of the name. -/
def extOf (s : String) : String :=
  let cs := s.data
  let rest := cs.drop ((cs.takeWhile (fun c => c = '.')).length)
  let revTail := rest.reverse.takeWhile (fun c => ¬ c = '.')
  if revTail.length = rest.length then "" else String.mk ('.' :: revTail.reverse)

/-- One `(dirpath, filenames)` entry yielded by the `os.walk` collaborator. -/
structure WalkDir where
  parts : List String
  files : List String
deriving DecidableEq, Repr

/-- `find_best_matching_file` from src/main.py: skip any directory one of
whose path components is excluded or starts with a dot; score every
non-excluded filename against `Path(user_path).name` (passed in as
`userFilename`), boosting files directly in the root; track the strictly
best score; answer only when the best reaches `min_score`. -/
def find_best_matching_file (fuzzyAvailable : Bool)
    (excludedFiles excludedExts : List String) (ratio : String → String → ℕ)
    (rootParts : List String) (walk : List WalkDir) (userFilename : String)
    (minScore : ℕ) : Option (List String × String) :=
  if fuzzyAvailable = false then none
  else
    let result := walk.foldl
      (fun (best : Option (List String × String) × ℕ) d =>
        if d.parts.any (fun part => decide (part ∈ excludedFiles) || startsWithDot part)
        then best
        else d.files.foldl
          (fun b fn =>
            if fn ∈ excludedFiles ∨ extOf fn ∈ excludedExts then b
            else
              let score := ratio userFilename.toLower fn.toLower
              let score := if d.parts = rootParts then score + 10 else score
              if b.2 < score then (some (d.parts, fn), score) else b)
          best)
      (none, 0)
    if minScore ≤ result.2 then result.1 else none

lemma foldl_skip {f : β → α → β} :
    ∀ (l : List α) (b : β), (∀ x ∈ l, ∀ acc, f acc x = acc) → l.foldl f b = b := by
  intro l
  induction l with
  | nil => intro b _; rfl
  | cons x xs ih =>
      intro b h
      rw [List.foldl_cons, h x (List.mem_cons_self x xs) b]
      exact ih b (fun y hy acc => h y (List.mem_cons_of_mem x hy) acc)

/-- C10: the skip test covers the components of the search root itself, so
whenever any component of `root_dir` is hidden or excluded, every walked
directory (all of which extend the root) is skipped and the finder returns
`none` for every user path and every positive `min_score`. -/
theorem find_best_matching_file_bad_root (fuzzyAvailable : Bool)
    (excludedFiles excludedExts : List String) (ratio : String → String → ℕ)
    (rootParts : List String) (walk : List WalkDir) (userFilename : String)
    (minScore : ℕ)
    (hroot : ∃ part ∈ rootParts, part ∈ excludedFiles ∨ startsWithDot part = true)
    (hwalk : ∀ d ∈ walk, rootParts <+: d.parts)
    (hmin : 1 ≤ minScore) :
    find_best_matching_file fuzzyAvailable excludedFiles excludedExts ratio
      rootParts walk userFilename minScore = none := by
  unfold find_best_matching_file
  by_cases hfa : fuzzyAvailable = false
  · rw [if_pos hfa]
  · rw [if_neg hfa]
    obtain ⟨part, hpmem, hpbad⟩ := hroot
    have hfold : walk.foldl
        (fun (best : Option (List String × String) × ℕ) d =>
          if d.parts.any (fun part => decide (part ∈ excludedFiles) || startsWithDot part)
          then best
          else d.files.foldl
            (fun b fn =>
              if fn ∈ excludedFiles ∨ extOf fn ∈ excludedExts then b
              else
                let score := ratio userFilename.toLower fn.toLower
                let score := if d.parts = rootParts then score + 10 else score
                if b.2 < score then (some (d.parts, fn), score) else b)
            best)
        (none, 0) = (none, 0) := by
      apply foldl_skip
      intro d hd acc
      have hmem : part ∈ d.parts := (hwalk d hd).subset hpmem
      have hany : d.parts.any
          (fun part => decide (part ∈ excludedFiles) || startsWithDot part) = true := by
        apply List.any_eq_true.2
        refine ⟨part, hmem, ?_⟩
        rcases hpbad with h | h
        · simp [h]
        · simp [h]
      rw [if_pos hany]
    rw [hfold]
    rw [if_neg (by omega)]

/-- Witness for C10: a search root inside a hidden directory yields no match
even for a perfectly scoring candidate set. -/
theorem find_best_matching_file_bad_root_witness :
    (∃ part ∈ [".hidden", "proj"], part ∈ ([] : List String)
        ∨ startsWithDot part = true)
    ∧ find_best_matching_file true [] [] (fun _ _ => 100) [".hidden", "proj"]
        [⟨[".hidden", "proj"], ["main.py"]⟩] "main.py" 80 = none :=
  ⟨by decide,
    find_best_matching_file_bad_root true [] [] (fun _ _ => 100) [".hidden", "proj"]
      [⟨[".hidden", "proj"], ["main.py"]⟩] "main.py" 80
      (by decide) (by decide) (by decide)⟩

/-! ## Path security (C6): `normalize_path` and the `/add` command
(src/main.py lines 1417-1466 and 1846-1892)

Paths are modelled symlink-free as an absolute flag plus components;
`resolve` normalises `.` and `..` (the `strict=True` / fallback branches of
the source collapse in a symlink-free model).  `existsFS` is the filesystem
collaborator's `exists`.  In `try_handle_add_command` the direct branch
computes `(base_dir / path_to_add).resolve()` and, when it exists, proceeds
straight to `is_dir`/`read_local_file` on it; `normalize_path` is never
called on it.  `fuzzyMatch` stands for the fuzzy branch's
`find_best_matching_file` result as confirmed by the user. -/

/-- A pathlib-style path: absolute flag and components. -/
structure PyPath where
  absolute : Bool
  parts : List String
deriving DecidableEq, Repr

/-- `base / p`: an absolute right operand replaces the base entirely. -/
def joinPath (base p : PyPath) : PyPath :=
  if p.absolute then p else ⟨base.absolute, base.parts ++ p.parts⟩

/-- Normalisation of `.` and `..` components (symlink-free `Path.resolve`);
`..` at the root stays at the root. -/
def resolveParts : List String → List String → List String
  | stack, [] => stack.reverse
  | stack, s :: rest =>
    if s = "." then resolveParts stack rest
    else if s = ".." then resolveParts stack.tail rest
    else resolveParts (s :: stack) rest

/-- Symlink-free `Path.resolve`. -/
def resolvePath (p : PyPath) : PyPath := ⟨p.absolute, resolveParts [] p.parts⟩

/-- `resolved.relative_to(base)` succeeds: the claim's "resolves within the
base directory". -/
def isWithinBase (base p : PyPath) : Bool :=
  decide (base.parts <+: p.parts ∧ p.absolute = base.absolute)

/-- `normalize_path` from src/main.py: resolve against the base directory,
then (unless `allow_outside_project`) refuse any path that does not resolve
within it. -/
def normalize_path (base : PyPath) (p : PyPath) (allowOutsideProject : Bool) :
    Except Unit PyPath :=
  let resolved :=
    if p.absolute then resolvePath p
    else resolvePath ⟨base.absolute, base.parts ++ p.parts⟩
  if allowOutsideProject = false ∧ isWithinBase (resolvePath base) resolved = false
  then .error ()
  else .ok resolved

/-- The path `try_handle_add_command` goes on to use for its filesystem
calls (`Path(...).is_dir()`, `read_local_file`): the resolved direct path
whenever it exists — with no base-directory validation — else the
(user-confirmed) fuzzy match, else nothing. -/
def addCommandTarget (existsFS : PyPath → Bool) (fuzzyMatch : Option PyPath)
    (base : PyPath) (pathToAdd : PyPath) : Option PyPath :=
  let p := resolvePath (joinPath base pathToAdd)
  if existsFS p then some p else fuzzyMatch

/-- C6 refuted at a concrete input: with base directory `/home/user`, the
command `/add /etc/passwd` (the file existing) selects `/etc/passwd` for
reading even though it resolves outside the base directory — the very path
`normalize_path` would reject.  The direct branch of
`try_handle_add_command` performs filesystem calls on the unvalidated
path. -/
theorem addCommandTarget_escapes_base :
    addCommandTarget (fun q => decide (q = ⟨true, ["etc", "passwd"]⟩)) none
        ⟨true, ["home", "user"]⟩ ⟨true, ["etc", "passwd"]⟩
      = some ⟨true, ["etc", "passwd"]⟩
    ∧ isWithinBase (resolvePath ⟨true, ["home", "user"]⟩)
        ⟨true, ["etc", "passwd"]⟩ = false
    ∧ normalize_path ⟨true, ["home", "user"]⟩ ⟨true, ["etc", "passwd"]⟩ false
      = .error () := by
  refine ⟨?_, ?_, ?_⟩
  · rfl
  · rfl
  · rfl

end MistralAssistant
